import Mathlib

/-!
# FurryOS healer core: the supervise-and-restart loop

Shallow embedding of `main` of
`config/includes.chroot/usr/share/backgrounds/furryos/healer_core.cpp`:

```
int main(int argc, char* argv[]) {
    if (argc < 2) return 1;
    while(true) {
        pid_t pid = fork();
        if (pid == 0) { execvp(argv[1], &argv[1]); exit(1); }
        else { int s; waitpid(pid, &s, 0); std::this_thread::sleep_for(std::chrono::seconds(1)); }
    }
    return 0;
}
```

One process running `main` is a deterministic transition system: a program
point, the local `s`, and ghost fields recording what the process did (its
effect trace), which of its children are not yet reaped, and a logical clock.
Everything the operating system decides (what `fork` returns, whether `execvp`
comes back, the status `waitpid` stores, how long a child runs) is read from an
oracle `Env`. The same `main` describes the supervisor (every `fork` returns a
non-zero value) and a child (the last `fork` returned `0`).
-/

namespace Healer

/-- System and library calls made by `main`, with their arguments. `output` stands for a
write to standard output (`fd = 1`) or standard error (`fd = 2`). -/
inductive Effect where
  | fork
  | execvp (file : String) (args : List String)
  | exit (status : Int)
  | waitpid (pid : Int) (options : Int)
  | sleep_for (seconds : Int)
  | output (fd : Nat) (text : String)
  deriving DecidableEq, Repr

/-- Program points of `main`, and the three ways the process stops running `main`. -/
inductive Pc where
  /-- Before `if (argc < 2)`. -/
  | entry
  /-- At the test of `while(true)`, before `pid_t pid = fork();`. -/
  | loopHead
  /-- In the branch `pid == 0`, before `execvp(argv[1], &argv[1]);`. -/
  | childExec
  /-- In the branch `pid == 0`, `execvp` came back, before `exit(1);`. -/
  | childExit
  /-- In the `else` branch, before `waitpid(pid, &s, 0);`. -/
  | parentWait (pid : Int)
  /-- In the `else` branch, before `sleep_for(seconds(1));`. -/
  | parentSleep (pid : Int)
  /-- The function `main` returned `status`. -/
  | returned (status : Int)
  /-- The process called `exit(status)`. -/
  | exited (status : Int)
  /-- The process image was replaced by a successful `execvp`. -/
  | replaced
  deriving DecidableEq, Repr

/-- What the operating system answers to one process running `main`. -/
structure Env where
  /-- Value returned by `fork` in loop iteration `k`: `0` in the child, the child's pid
  in the parent, negative when no process could be created. -/
  fork : Nat → Int
  /-- Whether `execvp` fails and returns, instead of replacing the process image. -/
  execvpFails : Bool
  /-- Status word stored in `s` by the `waitpid` of iteration `k` when it reaps a child. -/
  waitStatus : Nat → Int
  /-- How long the child of iteration `k` runs before it terminates, in seconds. -/
  childRuntime : Nat → ℚ

/-- State of one process running `main`. -/
structure State where
  pc : Pc
  /-- The local `int s`: `none` while out of scope or not yet written. -/
  s : Option Int
  /-- Number of completed loop iterations. -/
  cycle : Nat
  /-- Calls made so far, oldest first. -/
  trace : List Effect
  /-- Children of this process that were forked and are not yet reaped. -/
  live : List Int
  /-- Logical clock in seconds: only `waitpid` and `sleep_for` take time. -/
  clock : ℚ

/-- The child that `waitpid(pid, &s, 0)` waits for and reaps, if the caller has one that
matches: any child for `pid = -1`, the child with that pid otherwise. With no matching
child the call fails at once (`ECHILD`). -/
def waitTarget (pid : Int) (live : List Int) : Option Int :=
  if pid = -1 then live.head?
  else if pid ∈ live then some pid else none

/-- Value returned by `waitpid(pid, &s, 0)`: the reaped pid, or `-1` on failure. -/
def waitpidResult (pid : Int) (live : List Int) : Int :=
  (waitTarget pid live).getD (-1)

/-- One step of `main`. -/
def step (env : Env) (argc : Int) (argv : List String) (st : State) : State :=
  match st.pc with
  | .entry =>
      if argc < 2 then { st with pc := .returned 1 } else { st with pc := .loopHead }
  | .loopHead =>
      if true then
        let pid := env.fork st.cycle
        { st with
          pc := if pid = 0 then .childExec else .parentWait pid
          trace := st.trace ++ [.fork]
          live := if pid = 0 then [] else if 0 < pid then pid :: st.live else st.live }
      else { st with pc := .returned 0 }
  | .childExec =>
      { st with
        pc := if env.execvpFails then .childExit else .replaced
        trace := st.trace ++ [.execvp (argv.getD 1 "") (argv.drop 1)] }
  | .childExit => { st with pc := .exited 1, trace := st.trace ++ [.exit 1] }
  | .parentWait pid =>
      match waitTarget pid st.live with
      | some c =>
          { st with
            pc := .parentSleep pid
            s := some (env.waitStatus st.cycle)
            trace := st.trace ++ [.waitpid pid 0]
            live := st.live.erase c
            clock := st.clock + env.childRuntime st.cycle }
      | none => { st with pc := .parentSleep pid, trace := st.trace ++ [.waitpid pid 0] }
  | .parentSleep _ =>
      { st with
        pc := .loopHead
        s := none
        cycle := st.cycle + 1
        trace := st.trace ++ [.sleep_for 1]
        clock := st.clock + 1 }
  | .returned _ => st
  | .exited _ => st
  | .replaced => st

/-- State in which the process enters `main`. -/
def init : State :=
  { pc := .entry, s := none, cycle := 0, trace := [], live := [], clock := 0 }

/-- State after `n` steps of `main`. -/
def run (env : Env) (argc : Int) (argv : List String) : Nat → State
  | 0 => init
  | n + 1 => step env argc argv (run env argc argv n)

/-- The process no longer runs `main`. -/
def Pc.terminal : Pc → Bool
  | .returned _ => true
  | .exited _ => true
  | .replaced => true
  | _ => false

/-- Whether the effect creates, runs, reaps or paces a child. -/
def Effect.isProcessCall : Effect → Bool
  | .fork => true
  | .execvp _ _ => true
  | .waitpid _ _ => true
  | .sleep_for _ => true
  | _ => false

/-- Whether the effect writes to standard output or standard error. -/
def Effect.isOutput : Effect → Bool
  | .output _ _ => true
  | _ => false

/-- Whether the effect is a `fork`. -/
def Effect.isFork : Effect → Bool
  | .fork => true
  | _ => false

/-- Whether the effect is a `waitpid`. -/
def Effect.isWait : Effect → Bool
  | .waitpid _ _ => true
  | _ => false

/-- Parent-side effects of one loop iteration in which `fork` returned `pid`. -/
def cycleEffects (pid : Int) : List Effect :=
  [.fork, .waitpid pid 0, .sleep_for 1]

/-- Parent-side effects of the first `n` loop iterations. -/
def cycles (env : Env) : Nat → List Effect
  | 0 => []
  | n + 1 => cycles env n ++ cycleEffects (env.fork n)

/-- Time the `waitpid` of iteration `k` blocks: the child's run time when one was
created, nothing when `fork` failed. -/
def blocked (env : Env) (k : Nat) : ℚ :=
  if 0 < env.fork k then env.childRuntime k else 0

/-- Logical time at which the `fork` of iteration `n` is called. -/
def spawnTime (env : Env) : Nat → ℚ
  | 0 => 0
  | n + 1 => spawnTime env n + blocked env n + 1

/-- State of the supervisor at the head of loop iteration `n`. -/
def atLoopHead (env : Env) (n : Nat) : State :=
  { pc := .loopHead, s := none, cycle := n, trace := cycles env n, live := [],
    clock := spawnTime env n }

/-- Shape of the calls `main` can make. -/
def Effect.fromMain (env : Env) (argv : List String) (e : Effect) : Prop :=
  e = .fork ∨ e = .execvp (argv.getD 1 "") (argv.drop 1) ∨ e = .exit 1 ∨
    (∃ k, e = .waitpid (env.fork k) 0) ∨ e = .sleep_for 1

/-- Invariant linking the program point, the iteration and the set of live children. -/
def Inv (env : Env) (st : State) : Prop :=
  match st.pc with
  | .parentWait pid =>
      pid = env.fork st.cycle ∧ pid ≠ 0 ∧ st.live = if 0 < pid then [pid] else []
  | .parentSleep pid => pid = env.fork st.cycle ∧ pid ≠ 0 ∧ st.live = []
  | .childExec => env.fork st.cycle = 0 ∧ st.live = []
  | .childExit => env.fork st.cycle = 0 ∧ st.live = []
  | .exited _ => env.fork st.cycle = 0 ∧ st.live = []
  | .replaced => env.fork st.cycle = 0 ∧ st.live = []
  | _ => st.live = []

/-- Program points inside the loop or past it in a child: everything except the entry of
`main` and a return from it. -/
def Pc.pastEntry : Pc → Bool
  | .entry => false
  | .returned _ => false
  | _ => true

/-- Program points of the parent branch of the loop. -/
def Pc.supervising : Pc → Bool
  | .loopHead => true
  | .parentWait _ => true
  | .parentSleep _ => true
  | _ => false

/-- The environment seen by the child created in iteration `k`: the history of the
process it was copied from, and `0` from the `fork` that created it. -/
def childEnv (env : Env) (k : Nat) : Env :=
  { env with fork := fun j => if j = k then 0 else env.fork j }

/-- Two states that differ at most in the local `s`. -/
def State.sameActions (a b : State) : Prop :=
  a.pc = b.pc ∧ a.cycle = b.cycle ∧ a.trace = b.trace ∧ a.live = b.live ∧ a.clock = b.clock

/-- An environment in which every `fork` succeeds, every child runs for two seconds and
exits with status word `0`, and `execvp` fails. -/
def sampleEnv : Env :=
  { fork := fun k => (k : Int) + 100, execvpFails := true, waitStatus := fun _ => 0,
    childRuntime := fun _ => 2 }

/-- An environment in which the first `fork` fails and the later ones succeed. -/
def forkFailsOnce : Env :=
  { sampleEnv with fork := fun k => if k = 0 then -1 else (k : Int) + 100 }

/-! ## Basic facts about `step` and `run` -/

theorem run_succ (env : Env) (argc : Int) (argv : List String) (n : Nat) :
    run env argc argv (n + 1) = step env argc argv (run env argc argv n) := rfl

theorem run_add (env : Env) (argc : Int) (argv : List String) (n m : Nat) :
    run env argc argv (n + m) = (step env argc argv)^[m] (run env argc argv n) := by
  induction m with
  | zero => rfl
  | succ m ih =>
    rw [← Nat.add_assoc, run_succ, ih, Function.iterate_succ_apply']

/-- A process that stopped running `main` takes no further step. -/
theorem step_terminal (env : Env) (argc : Int) (argv : List String) (st : State)
    (h : st.pc.terminal = true) : step env argc argv st = st := by
  unfold step
  cases hpc : st.pc <;> simp [hpc, Pc.terminal] at h ⊢

theorem run_terminal (env : Env) (argc : Int) (argv : List String) (n : Nat)
    (h : (run env argc argv n).pc.terminal = true) (m : Nat) :
    run env argc argv (n + m) = run env argc argv n := by
  induction m with
  | zero => rfl
  | succ m ih => rw [← Nat.add_assoc, run_succ, ih, step_terminal _ _ _ _ h]

/-- Each step keeps the calls made so far and appends at most one. -/
theorem step_trace (env : Env) (argc : Int) (argv : List String) (st : State) :
    ∃ l, (step env argc argv st).trace = st.trace ++ l := by
  unfold step
  cases hpc : st.pc with
  | entry => simp only; split <;> exact ⟨[], by simp⟩
  | loopHead => exact ⟨[.fork], by simp⟩
  | childExec => exact ⟨_, rfl⟩
  | childExit => exact ⟨_, rfl⟩
  | parentWait pid => simp only; split <;> exact ⟨_, rfl⟩
  | parentSleep pid => exact ⟨_, rfl⟩
  | returned c => exact ⟨[], by simp⟩
  | exited c => exact ⟨[], by simp⟩
  | replaced => exact ⟨[], by simp⟩

theorem trace_prefix (env : Env) (argc : Int) (argv : List String) (n m : Nat) :
    (run env argc argv n).trace <+: (run env argc argv (n + m)).trace := by
  induction m with
  | zero => exact List.prefix_refl _
  | succ m ih =>
    obtain ⟨l, hl⟩ := step_trace env argc argv (run env argc argv (n + m))
    rw [← Nat.add_assoc, run_succ, hl]
    exact ih.trans (List.prefix_append _ _)

theorem run_one_of_lt (env : Env) (argc : Int) (argv : List String) (h : argc < 2) :
    run env argc argv 1 = { init with pc := .returned 1 } := by
  simp [run, step, init, h]

theorem run_one_of_le (env : Env) (argc : Int) (argv : List String) (h : 2 ≤ argc) :
    run env argc argv 1 = atLoopHead env 0 := by
  have h2 : ¬ argc < 2 := by omega
  simp [run, step, init, h2, atLoopHead, cycles, spawnTime]

/-- One full iteration of the loop in the parent branch. -/
theorem step_cycle (env : Env) (argc : Int) (argv : List String) (k : Nat)
    (hk : env.fork k ≠ 0) :
    step env argc argv (step env argc argv (step env argc argv (atLoopHead env k)))
      = atLoopHead env (k + 1) := by
  rcases lt_or_gt_of_ne hk with hneg | hpos
  · have h1 : ¬ (0 < env.fork k) := by omega
    by_cases hm : env.fork k = -1
    · simp [step, atLoopHead, hk, h1, waitTarget, cycles, cycleEffects, spawnTime, blocked, hm]
    · simp [step, atLoopHead, hk, h1, waitTarget, cycles, cycleEffects, spawnTime, blocked, hm]
  · have hm : env.fork k ≠ -1 := by omega
    simp [step, atLoopHead, hk, hpos, waitTarget, cycles, cycleEffects, spawnTime, blocked, hm]

/-- While every `fork` so far returned a non-zero value, the process is back at the head
of the loop after three steps per iteration. -/
theorem run_loopHead (env : Env) (argc : Int) (argv : List String) (h : 2 ≤ argc) (n : Nat)
    (hf : ∀ j, j < n → env.fork j ≠ 0) :
    run env argc argv (1 + 3 * n) = atLoopHead env n := by
  induction n with
  | zero => exact run_one_of_le env argc argv h
  | succ n ih =>
    have e : 1 + 3 * (n + 1) = (1 + 3 * n) + 1 + 1 + 1 := by ring
    rw [e, run_succ, run_succ, run_succ, ih (fun j hj => hf j (Nat.lt_succ_of_lt hj))]
    exact step_cycle env argc argv n (hf n (Nat.lt_succ_self n))

theorem length_cycles (env : Env) (n : Nat) : (cycles env n).length = 3 * n := by
  induction n with
  | zero => rfl
  | succ n ih => simp [cycles, cycleEffects, ih]; ring

/-! ## States inside one loop iteration -/

/-- Parent branch, right after `fork` returned a non-zero value. -/
theorem run_parentWait (env : Env) (argc : Int) (argv : List String) (h : 2 ≤ argc) (k : Nat)
    (hf : ∀ j, j < k → env.fork j ≠ 0) (hk : env.fork k ≠ 0) :
    run env argc argv (1 + 3 * k + 1) =
      { pc := .parentWait (env.fork k), s := none, cycle := k,
        trace := cycles env k ++ [.fork],
        live := if 0 < env.fork k then [env.fork k] else [],
        clock := spawnTime env k } := by
  rw [run_succ, run_loopHead env argc argv h k hf]
  simp [step, atLoopHead, hk]

/-- Parent branch, right after `waitpid` returned. -/
theorem run_parentSleep (env : Env) (argc : Int) (argv : List String) (h : 2 ≤ argc) (k : Nat)
    (hf : ∀ j, j < k → env.fork j ≠ 0) (hk : env.fork k ≠ 0) :
    run env argc argv (1 + 3 * k + 2) =
      { pc := .parentSleep (env.fork k),
        s := if 0 < env.fork k then some (env.waitStatus k) else none, cycle := k,
        trace := cycles env k ++ [.fork, .waitpid (env.fork k) 0],
        live := [],
        clock := spawnTime env k + blocked env k } := by
  have e : 1 + 3 * k + 2 = (1 + 3 * k + 1) + 1 := by ring
  rw [e, run_succ, run_parentWait env argc argv h k hf hk]
  rcases lt_or_gt_of_ne hk with hneg | hpos
  · have h1 : ¬ (0 < env.fork k) := by omega
    by_cases hm : env.fork k = -1
    · simp [step, h1, waitTarget, blocked, hm]
    · simp [step, h1, waitTarget, blocked, hm]
  · have hm : env.fork k ≠ -1 := by omega
    simp [step, hpos, waitTarget, blocked, hm]

/-- Child branch, right after `fork` returned `0`. -/
theorem run_childExec (env : Env) (argc : Int) (argv : List String) (h : 2 ≤ argc) (k : Nat)
    (hf : ∀ j, j < k → env.fork j ≠ 0) (hk : env.fork k = 0) :
    run env argc argv (1 + 3 * k + 1) =
      { pc := .childExec, s := none, cycle := k, trace := cycles env k ++ [.fork],
        live := [], clock := spawnTime env k } := by
  rw [run_succ, run_loopHead env argc argv h k hf]
  simp [step, atLoopHead, hk]

/-- Child branch, right after the call of `execvp`. -/
theorem run_childExit (env : Env) (argc : Int) (argv : List String) (h : 2 ≤ argc) (k : Nat)
    (hf : ∀ j, j < k → env.fork j ≠ 0) (hk : env.fork k = 0) :
    run env argc argv (1 + 3 * k + 2) =
      { pc := if env.execvpFails then .childExit else .replaced, s := none, cycle := k,
        trace := cycles env k ++ [.fork, .execvp (argv.getD 1 "") (argv.drop 1)],
        live := [], clock := spawnTime env k } := by
  have e : 1 + 3 * k + 2 = (1 + 3 * k + 1) + 1 := by ring
  rw [e, run_succ, run_childExec env argc argv h k hf hk]
  simp [step]

/-- Child branch, after `exit(1)`. -/
theorem run_exited (env : Env) (argc : Int) (argv : List String) (h : 2 ≤ argc) (k : Nat)
    (hf : ∀ j, j < k → env.fork j ≠ 0) (hk : env.fork k = 0) (hx : env.execvpFails = true) :
    run env argc argv (1 + 3 * k + 3) =
      { pc := .exited 1, s := none, cycle := k,
        trace := cycles env k ++ [.fork, .execvp (argv.getD 1 "") (argv.drop 1), .exit 1],
        live := [], clock := spawnTime env k } := by
  have e : 1 + 3 * k + 3 = (1 + 3 * k + 2) + 1 := by ring
  rw [e, run_succ, run_childExit env argc argv h k hf hk]
  simp [step, hx]

/-! ## Invariants of every run -/

theorem inv_init (env : Env) : Inv env init := by
  simp [Inv, init]

theorem step_entry_lt (env : Env) (argc : Int) (argv : List String) (st : State)
    (hpc : st.pc = .entry) (h : argc < 2) :
    step env argc argv st = { st with pc := .returned 1 } := by
  simp [step, hpc, h]

theorem step_entry_le (env : Env) (argc : Int) (argv : List String) (st : State)
    (hpc : st.pc = .entry) (h : 2 ≤ argc) :
    step env argc argv st = { st with pc := .loopHead } := by
  have h2 : ¬ argc < 2 := by omega
  simp [step, hpc, h2]

theorem step_loopHead_child (env : Env) (argc : Int) (argv : List String) (st : State)
    (hpc : st.pc = .loopHead) (h : env.fork st.cycle = 0) :
    step env argc argv st = { st with pc := .childExec, trace := st.trace ++ [.fork], live := [] } := by
  simp [step, hpc, h]

theorem step_loopHead_parent (env : Env) (argc : Int) (argv : List String) (st : State)
    (hpc : st.pc = .loopHead) (h : env.fork st.cycle ≠ 0) :
    step env argc argv st =
      { st with
        pc := .parentWait (env.fork st.cycle), trace := st.trace ++ [.fork],
        live := if 0 < env.fork st.cycle then env.fork st.cycle :: st.live else st.live } := by
  simp [step, hpc, h]

theorem step_childExec (env : Env) (argc : Int) (argv : List String) (st : State)
    (hpc : st.pc = .childExec) :
    step env argc argv st =
      { st with
        pc := if env.execvpFails then .childExit else .replaced
        trace := st.trace ++ [.execvp (argv.getD 1 "") (argv.drop 1)] } := by
  simp [step, hpc]

theorem step_childExit (env : Env) (argc : Int) (argv : List String) (st : State)
    (hpc : st.pc = .childExit) :
    step env argc argv st = { st with pc := .exited 1, trace := st.trace ++ [.exit 1] } := by
  simp [step, hpc]

theorem step_parentWait_reap (env : Env) (argc : Int) (argv : List String) (st : State)
    (pid : Int) (hpc : st.pc = .parentWait pid) (hpos : 0 < pid) (hl : st.live = [pid]) :
    step env argc argv st =
      { st with
        pc := .parentSleep pid, s := some (env.waitStatus st.cycle),
        trace := st.trace ++ [.waitpid pid 0], live := [],
        clock := st.clock + env.childRuntime st.cycle } := by
  have hm : pid ≠ -1 := by omega
  simp [step, hpc, hl, waitTarget, hm]

theorem step_parentWait_none (env : Env) (argc : Int) (argv : List String) (st : State)
    (pid : Int) (hpc : st.pc = .parentWait pid) (hl : st.live = []) :
    step env argc argv st =
      { st with pc := .parentSleep pid, trace := st.trace ++ [.waitpid pid 0] } := by
  by_cases hm : pid = -1 <;> simp [step, hpc, hl, waitTarget, hm]

theorem step_parentSleep (env : Env) (argc : Int) (argv : List String) (st : State)
    (pid : Int) (hpc : st.pc = .parentSleep pid) :
    step env argc argv st =
      { st with
        pc := .loopHead, s := none, cycle := st.cycle + 1,
        trace := st.trace ++ [.sleep_for 1], clock := st.clock + 1 } := by
  simp [step, hpc]

theorem inv_step (env : Env) (argc : Int) (argv : List String) (st : State)
    (h : Inv env st) : Inv env (step env argc argv st) := by
  unfold Inv at h
  cases hpc : st.pc with
  | entry =>
    rw [hpc] at h
    rcases lt_or_le argc 2 with ha | ha
    · rw [step_entry_lt env argc argv st hpc ha]; simpa [Inv] using h
    · rw [step_entry_le env argc argv st hpc ha]; simpa [Inv] using h
  | loopHead =>
    rw [hpc] at h
    by_cases hz : env.fork st.cycle = 0
    · rw [step_loopHead_child env argc argv st hpc hz]; simpa [Inv] using hz
    · rw [step_loopHead_parent env argc argv st hpc hz]; simp [Inv, hz, h]
  | childExec =>
    rw [hpc] at h
    rw [step_childExec env argc argv st hpc]
    cases hx : env.execvpFails <;> simpa [Inv] using h
  | childExit =>
    rw [hpc] at h
    rw [step_childExit env argc argv st hpc]; simpa [Inv] using h
  | parentWait pid =>
    rw [hpc] at h
    obtain ⟨h1, h2, h3⟩ := h
    by_cases hp : 0 < pid
    · rw [if_pos hp] at h3
      rw [step_parentWait_reap env argc argv st pid hpc hp h3]
      simp [Inv, h1, h2]
      rw [← h1]; exact h2
    · rw [if_neg hp] at h3
      rw [step_parentWait_none env argc argv st pid hpc h3]
      simp [Inv, h3]
      exact ⟨h1, h2⟩
  | parentSleep pid =>
    rw [hpc] at h
    rw [step_parentSleep env argc argv st pid hpc]; simpa [Inv] using h.2.2
  | returned c =>
    rw [step_terminal _ _ _ _ (by simp [hpc, Pc.terminal])]; unfold Inv; rw [hpc]; rw [hpc] at h
    exact h
  | exited c =>
    rw [step_terminal _ _ _ _ (by simp [hpc, Pc.terminal])]; unfold Inv; rw [hpc]; rw [hpc] at h
    exact h
  | replaced =>
    rw [step_terminal _ _ _ _ (by simp [hpc, Pc.terminal])]; unfold Inv; rw [hpc]; rw [hpc] at h
    exact h

theorem inv_run (env : Env) (argc : Int) (argv : List String) (n : Nat) :
    Inv env (run env argc argv n) := by
  induction n with
  | zero => exact inv_init env
  | succ n ih => exact inv_step env argc argv _ ih

/-! ## Which calls appear in a trace -/

theorem step_fromMain (env : Env) (argc : Int) (argv : List String) (st : State)
    (h : ∀ e ∈ st.trace, Effect.fromMain env argv e) (hi : Inv env st) :
    ∀ e ∈ (step env argc argv st).trace, Effect.fromMain env argv e := by
  unfold Inv at hi
  cases hpc : st.pc with
  | entry =>
    rcases lt_or_le argc 2 with ha | ha
    · rw [step_entry_lt env argc argv st hpc ha]; exact h
    · rw [step_entry_le env argc argv st hpc ha]; exact h
  | loopHead =>
    by_cases hz : env.fork st.cycle = 0
    · rw [step_loopHead_child env argc argv st hpc hz]
      intro e he
      rcases List.mem_append.1 he with he | he
      · exact h e he
      · simp at he; exact Or.inl he
    · rw [step_loopHead_parent env argc argv st hpc hz]
      intro e he
      rcases List.mem_append.1 he with he | he
      · exact h e he
      · simp at he; exact Or.inl he
  | childExec =>
    rw [step_childExec env argc argv st hpc]
    intro e he
    rcases List.mem_append.1 he with he | he
    · exact h e he
    · rw [List.mem_singleton] at he; exact Or.inr (Or.inl he)
  | childExit =>
    rw [step_childExit env argc argv st hpc]
    intro e he
    rcases List.mem_append.1 he with he | he
    · exact h e he
    · simp at he; exact Or.inr (Or.inr (Or.inl he))
  | parentWait pid =>
    rw [hpc] at hi
    obtain ⟨h1, h2, h3⟩ := hi
    by_cases hp : 0 < pid
    · rw [if_pos hp] at h3
      rw [step_parentWait_reap env argc argv st pid hpc hp h3]
      intro e he
      rcases List.mem_append.1 he with he | he
      · exact h e he
      · simp at he; exact Or.inr (Or.inr (Or.inr (Or.inl ⟨st.cycle, by rw [he, h1]⟩)))
    · rw [if_neg hp] at h3
      rw [step_parentWait_none env argc argv st pid hpc h3]
      intro e he
      rcases List.mem_append.1 he with he | he
      · exact h e he
      · simp at he; exact Or.inr (Or.inr (Or.inr (Or.inl ⟨st.cycle, by rw [he, h1]⟩)))
  | parentSleep pid =>
    rw [step_parentSleep env argc argv st pid hpc]
    intro e he
    rcases List.mem_append.1 he with he | he
    · exact h e he
    · simp at he; exact Or.inr (Or.inr (Or.inr (Or.inr he)))
  | returned c => rw [step_terminal _ _ _ _ (by simp [hpc, Pc.terminal])]; exact h
  | exited c => rw [step_terminal _ _ _ _ (by simp [hpc, Pc.terminal])]; exact h
  | replaced => rw [step_terminal _ _ _ _ (by simp [hpc, Pc.terminal])]; exact h

/-- Every call in a trace is one of the five calls written in `main`. -/
theorem run_fromMain (env : Env) (argc : Int) (argv : List String) (n : Nat) :
    ∀ e ∈ (run env argc argv n).trace, Effect.fromMain env argv e := by
  induction n with
  | zero => intro e he; simp [run, init] at he
  | succ n ih => exact step_fromMain env argc argv _ ih (inv_run env argc argv n)

/-! ## Where `main` can stop -/

theorem step_pastEntry (env : Env) (argc : Int) (argv : List String) (st : State)
    (h : st.pc.pastEntry = true) : (step env argc argv st).pc.pastEntry = true := by
  cases hpc : st.pc with
  | entry => simp [hpc, Pc.pastEntry] at h
  | loopHead =>
    by_cases hz : env.fork st.cycle = 0
    · rw [step_loopHead_child env argc argv st hpc hz]; rfl
    · rw [step_loopHead_parent env argc argv st hpc hz]; rfl
  | childExec =>
    rw [step_childExec env argc argv st hpc]
    cases env.execvpFails <;> rfl
  | childExit => rw [step_childExit env argc argv st hpc]; rfl
  | parentWait pid =>
    unfold step
    simp only [hpc]
    split <;> rfl
  | parentSleep pid => rw [step_parentSleep env argc argv st pid hpc]; rfl
  | returned c => simp [hpc, Pc.pastEntry] at h
  | exited c => rw [step_terminal _ _ _ _ (by simp [hpc, Pc.terminal])]; exact h
  | replaced => rw [step_terminal _ _ _ _ (by simp [hpc, Pc.terminal])]; exact h

/-- With a command to run, `main` is past its entry after one step and never returns. -/
theorem run_pastEntry (env : Env) (argc : Int) (argv : List String) (h : 2 ≤ argc) (n : Nat) :
    (run env argc argv (n + 1)).pc.pastEntry = true := by
  induction n with
  | zero => rw [run_one_of_le env argc argv h]; rfl
  | succ n ih => exact step_pastEntry env argc argv _ ih

theorem step_supervising (env : Env) (argc : Int) (argv : List String) (st : State)
    (hf : ∀ k, env.fork k ≠ 0) (h : st.pc.supervising = true) :
    (step env argc argv st).pc.supervising = true := by
  cases hpc : st.pc with
  | loopHead => rw [step_loopHead_parent env argc argv st hpc (hf _)]; rfl
  | parentWait pid =>
    unfold step
    simp only [hpc]
    split <;> rfl
  | parentSleep pid => rw [step_parentSleep env argc argv st pid hpc]; rfl
  | entry => simp [hpc, Pc.supervising] at h
  | childExec => simp [hpc, Pc.supervising] at h
  | childExit => simp [hpc, Pc.supervising] at h
  | returned c => simp [hpc, Pc.supervising] at h
  | exited c => simp [hpc, Pc.supervising] at h
  | replaced => simp [hpc, Pc.supervising] at h

/-- The supervisor (no `fork` returns `0` in it) stays in the parent branch of the loop. -/
theorem run_supervising (env : Env) (argc : Int) (argv : List String) (h : 2 ≤ argc)
    (hf : ∀ k, env.fork k ≠ 0) (n : Nat) :
    (run env argc argv (n + 1)).pc.supervising = true := by
  induction n with
  | zero => rw [run_one_of_le env argc argv h]; rfl
  | succ n ih => exact step_supervising env argc argv _ hf ih

theorem run_of_lt (env : Env) (argc : Int) (argv : List String) (h : argc < 2) (n : Nat) :
    run env argc argv (n + 1) = { init with pc := .returned 1 } := by
  have := run_terminal env argc argv 1 (by rw [run_one_of_lt env argc argv h]; rfl) n
  rw [Nat.add_comm 1 n] at this
  rw [this, run_one_of_lt env argc argv h]

theorem terminal_of_supervising (pc : Pc) (h : pc.supervising = true) : pc.terminal = false := by
  cases pc <;> simp [Pc.supervising, Pc.terminal] at h ⊢

/-! ## The status stored by `waitpid` is not used -/

theorem step_sameActions (env : Env) (st₁ st₂ : Nat → Int) (argc : Int) (argv : List String)
    (a b : State) (h : a.sameActions b) :
    (step { env with waitStatus := st₁ } argc argv a).sameActions
      (step { env with waitStatus := st₂ } argc argv b) := by
  obtain ⟨hpc, hc, ht, hl, hk⟩ := h
  unfold step
  rw [← hpc]
  cases hp : a.pc with
  | entry => by_cases ha : argc < 2 <;> simp [ha, State.sameActions, hc, ht, hl, hk]
  | loopHead => simp [State.sameActions, hc, ht, hl, hk]
  | childExec => simp [State.sameActions, hc, ht, hl, hk]
  | childExit => simp [State.sameActions, hc, ht, hl, hk]
  | parentWait pid =>
    simp only [← hl]
    cases waitTarget pid a.live <;> simp [State.sameActions, hc, ht, hl, hk, hp]
  | parentSleep pid => simp [State.sameActions, hc, ht, hl, hk]
  | returned c => exact ⟨by simp [hp, hpc ▸ hp], hc, ht, hl, hk⟩
  | exited c => exact ⟨by simp [hp, hpc ▸ hp], hc, ht, hl, hk⟩
  | replaced => exact ⟨by simp [hp, hpc ▸ hp], hc, ht, hl, hk⟩

theorem run_sameActions (env : Env) (st₁ st₂ : Nat → Int) (argc : Int) (argv : List String)
    (n : Nat) :
    (run { env with waitStatus := st₁ } argc argv n).sameActions
      (run { env with waitStatus := st₂ } argc argv n) := by
  induction n with
  | zero => exact ⟨rfl, rfl, rfl, rfl, rfl⟩
  | succ n ih => exact step_sameActions env st₁ st₂ argc argv _ _ ih

theorem cycles_congr (e₁ e₂ : Env) (n : Nat) (h : ∀ j, j < n → e₁.fork j = e₂.fork j) :
    cycles e₁ n = cycles e₂ n := by
  induction n with
  | zero => rfl
  | succ n ih =>
    simp only [cycles]
    rw [ih (fun j hj => h j (Nat.lt_succ_of_lt hj)), h n (Nat.lt_succ_self n)]

theorem cycles_childEnv (env : Env) (k : Nat) : cycles (childEnv env k) k = cycles env k := by
  apply cycles_congr
  intro j hj
  have : j ≠ k := by omega
  simp [childEnv, this]

/-! ## Shape of `cycles` -/

theorem cycles_getElem (env : Env) (n k i : Nat) (hk : k < n) (hi : i < 3) :
    (cycles env n)[3 * k + i]? = (cycleEffects (env.fork k))[i]? := by
  induction n with
  | zero => omega
  | succ n ih =>
    simp only [cycles]
    rcases Nat.lt_succ_iff_lt_or_eq.1 hk with hlt | heq
    · rw [List.getElem?_append_left (by rw [length_cycles]; omega)]
      exact ih hlt
    · subst heq
      rw [List.getElem?_append_right (by rw [length_cycles]; omega), length_cycles]
      congr 1
      omega

theorem countP_isFork_cycles (env : Env) (n : Nat) :
    (cycles env n).countP Effect.isFork = n := by
  induction n with
  | zero => rfl
  | succ n ih => simp [cycles, List.countP_append, ih, cycleEffects, Effect.isFork, List.countP_cons]

theorem countP_isWait_cycles (env : Env) (n : Nat) :
    (cycles env n).countP Effect.isWait = n := by
  induction n with
  | zero => rfl
  | succ n ih => simp [cycles, List.countP_append, ih, cycleEffects, Effect.isWait, List.countP_cons]

/-- From the call of `waitpid`, three steps lead to the next `fork`, whatever the state. -/
theorem restart_after_wait (env : Env) (argc : Int) (argv : List String) (st : State)
    (hi : Inv env st) (pid : Int) (hpc : st.pc = .parentWait pid) :
    (step env argc argv (step env argc argv (step env argc argv st))).trace
      = st.trace ++ [.waitpid pid 0, .sleep_for 1, .fork] := by
  have hi2 := hi
  unfold Inv at hi2
  rw [hpc] at hi2
  obtain ⟨-, -, h3⟩ := hi2
  have key : ∀ a : State, a.pc = .parentSleep pid → a.trace = st.trace ++ [.waitpid pid 0] →
      (step env argc argv (step env argc argv a)).trace
        = st.trace ++ [.waitpid pid 0, .sleep_for 1, .fork] := by
    intro a ha ht
    rw [step_parentSleep env argc argv a pid ha]
    by_cases hz : env.fork (a.cycle + 1) = 0
    · rw [step_loopHead_child env argc argv _ rfl hz]; simp [ht]
    · rw [step_loopHead_parent env argc argv _ rfl hz]; simp [ht]
  by_cases hp : 0 < pid
  · rw [if_pos hp] at h3
    rw [step_parentWait_reap env argc argv st pid hpc hp h3]
    exact key _ rfl rfl
  · rw [if_neg hp] at h3
    rw [step_parentWait_none env argc argv st pid hpc h3]
    exact key _ rfl rfl

theorem s_none_of_loopHead (env : Env) (argc : Int) (argv : List String) (n : Nat) :
    ((run env argc argv n).pc = .entry ∨ (run env argc argv n).pc = .loopHead) →
      (run env argc argv n).s = none := by
  induction n with
  | zero => intro _; rfl
  | succ n ih =>
    rw [run_succ]
    cases hpc : (run env argc argv n).pc with
    | entry =>
      rcases lt_or_le argc 2 with ha | ha
      · rw [step_entry_lt env argc argv _ hpc ha]; intro _; exact ih (Or.inl hpc)
      · rw [step_entry_le env argc argv _ hpc ha]; intro _; exact ih (Or.inl hpc)
    | loopHead =>
      by_cases hz : env.fork (run env argc argv n).cycle = 0
      · rw [step_loopHead_child env argc argv _ hpc hz]; simp
      · rw [step_loopHead_parent env argc argv _ hpc hz]; simp
    | childExec =>
      rw [step_childExec env argc argv _ hpc]
      cases env.execvpFails <;> simp
    | childExit => rw [step_childExit env argc argv _ hpc]; simp
    | parentWait pid =>
      unfold step
      simp only [hpc]
      split <;> simp
    | parentSleep pid => rw [step_parentSleep env argc argv _ pid hpc]; simp
    | returned c => rw [step_terminal _ _ _ _ (by simp [hpc, Pc.terminal])]; simp [hpc]
    | exited c => rw [step_terminal _ _ _ _ (by simp [hpc, Pc.terminal])]; simp [hpc]
    | replaced => rw [step_terminal _ _ _ _ (by simp [hpc, Pc.terminal])]; simp [hpc]

/-! ## The claims -/

/-- C1: invoked with no command to run (`argc < 2`), `main` returns status `1` at its first
step and stays returned; at every moment its effect trace is empty, so it holds no `fork`,
`execvp`, `waitpid` or `sleep_for`, and the process has no child. -/
theorem no_command_returns_one (env : Env) (argc : Int) (argv : List String) (h : argc < 2) :
    (run env argc argv 1).pc = .returned 1 ∧
    ∀ n, (run env argc argv (n + 1)).pc = .returned 1 ∧
      (run env argc argv n).trace = [] ∧
      (∀ e ∈ (run env argc argv n).trace, e.isProcessCall = false) ∧
      (run env argc argv n).live = [] := by
  have key : ∀ n, (run env argc argv n).trace = [] ∧ (run env argc argv n).live = [] := by
    intro n
    cases n with
    | zero => exact ⟨rfl, rfl⟩
    | succ n => rw [run_of_lt env argc argv h n]; exact ⟨rfl, rfl⟩
  refine ⟨by rw [run_one_of_lt env argc argv h], fun n => ⟨?_, (key n).1, ?_, (key n).2⟩⟩
  · rw [run_of_lt env argc argv h n]
  · intro e he
    rw [(key n).1] at he
    cases he

/-- Witness of C1: the supervisor started as `healer_core` alone. -/
theorem no_command_returns_one_witness :
    (1 : Int) < 2 ∧
    ((run sampleEnv 1 ["healer_core"] 1).pc = .returned 1 ∧
      ∀ n, (run sampleEnv 1 ["healer_core"] (n + 1)).pc = .returned 1 ∧
        (run sampleEnv 1 ["healer_core"] n).trace = [] ∧
        (∀ e ∈ (run sampleEnv 1 ["healer_core"] n).trace, e.isProcessCall = false) ∧
        (run sampleEnv 1 ["healer_core"] n).live = []) :=
  ⟨by decide, no_command_returns_one sampleEnv 1 ["healer_core"] (by decide)⟩

/-- C2: in every reachable state of `main` the process has at most one child that is not
yet reaped; at the head of the loop, where the next `fork` is called, it has none; and a
live child is always the one created by the `fork` of the current iteration, which the
process is about to wait for. -/
theorem at_most_one_live_child (env : Env) (argc : Int) (argv : List String) (n : Nat) :
    (run env argc argv n).live.length ≤ 1 ∧
    ((run env argc argv n).pc = .loopHead → (run env argc argv n).live = []) ∧
    ∀ c ∈ (run env argc argv n).live,
      (run env argc argv n).pc = .parentWait c ∧ 0 < c ∧
        c = env.fork (run env argc argv n).cycle := by
  have hi := inv_run env argc argv n
  unfold Inv at hi
  cases hpc : (run env argc argv n).pc with
  | parentWait pid =>
    rw [hpc] at hi
    obtain ⟨h1, -, h3⟩ := hi
    by_cases hp : 0 < pid
    · rw [if_pos hp] at h3
      refine ⟨by simp [h3], by simp, ?_⟩
      intro c hc
      rw [h3, List.mem_singleton] at hc
      subst hc
      exact ⟨rfl, hp, h1⟩
    · rw [if_neg hp] at h3
      simp [h3]
  | entry => rw [hpc] at hi; simp at hi; simp [hi]
  | loopHead => rw [hpc] at hi; simp at hi; simp [hi]
  | childExec => rw [hpc] at hi; simp [hi.2]
  | childExit => rw [hpc] at hi; simp [hi.2]
  | parentSleep pid => rw [hpc] at hi; simp [hi.2.2]
  | returned c => rw [hpc] at hi; simp at hi; simp [hi]
  | exited c => rw [hpc] at hi; simp [hi.2]
  | replaced => rw [hpc] at hi; simp [hi.2]

/-- Witness of C2: right after the first `fork` the one child is live, and at the head of
the loop none is. -/
theorem at_most_one_live_child_witness :
    (run sampleEnv 2 ["healer_core", "true"] 1).pc = .loopHead ∧
    (run sampleEnv 2 ["healer_core", "true"] 1).live = [] ∧
    (100 : Int) ∈ (run sampleEnv 2 ["healer_core", "true"] 2).live ∧
    (run sampleEnv 2 ["healer_core", "true"] 2).pc = .parentWait 100 :=
  ⟨by decide,
   (at_most_one_live_child sampleEnv 2 ["healer_core", "true"] 1).2.1 (by decide),
   by decide,
   ((at_most_one_live_child sampleEnv 2 ["healer_core", "true"] 2).2.2 100 (by decide)).1⟩

/-- C3: with a command to run and the first `N` calls of `fork` successful, the first `3 * N`
effects of the supervisor are `N` repetitions of (`fork`, `waitpid` on the pid that this
`fork` returned with options `0`, `sleep_for` of one second), at every later moment of the
run; after `1 + 3 * N` steps the supervisor is back at the head of the loop with no child
left, and the `N` iterations hold exactly `N` calls of `fork` and `N` of `waitpid`. -/
theorem cycles_in_order (env : Env) (argc : Int) (argv : List String) (N : Nat)
    (h : 2 ≤ argc) (hf : ∀ k, k < N → 0 < env.fork k) :
    (∀ n, 1 + 3 * N ≤ n → (run env argc argv n).trace.take (3 * N) = cycles env N) ∧
    (run env argc argv (1 + 3 * N)).trace = cycles env N ∧
    (run env argc argv (1 + 3 * N)).pc = .loopHead ∧
    (run env argc argv (1 + 3 * N)).live = [] ∧
    (∀ k, k < N →
      (cycles env N)[3 * k]? = some .fork ∧
      (cycles env N)[3 * k + 1]? = some (.waitpid (env.fork k) 0) ∧
      (cycles env N)[3 * k + 2]? = some (.sleep_for 1)) ∧
    (cycles env N).length = 3 * N ∧
    (cycles env N).countP Effect.isFork = N ∧
    (cycles env N).countP Effect.isWait = N := by
  have hne : ∀ j, j < N → env.fork j ≠ 0 := fun j hj => by have := hf j hj; omega
  have hrun := run_loopHead env argc argv h N hne
  refine ⟨?_, by rw [hrun]; rfl, by rw [hrun]; rfl, by rw [hrun]; rfl, ?_,
    length_cycles env N, countP_isFork_cycles env N, countP_isWait_cycles env N⟩
  · intro n hn
    obtain ⟨m, rfl⟩ := Nat.exists_eq_add_of_le hn
    have hp := trace_prefix env argc argv (1 + 3 * N) m
    rw [hrun] at hp
    have := List.prefix_iff_eq_take.1 hp
    simp only [atLoopHead, length_cycles] at this
    exact this.symm
  · intro k hk
    refine ⟨?_, ?_, ?_⟩
    · have := cycles_getElem env N k 0 hk (by omega)
      simpa [cycleEffects] using this
    · have := cycles_getElem env N k 1 hk (by omega)
      simpa [cycleEffects] using this
    · have := cycles_getElem env N k 2 hk (by omega)
      simpa [cycleEffects] using this

/-- Witness of C3: two iterations of the supervisor of `true`. -/
theorem cycles_in_order_witness :
    (2 : Int) ≤ 2 ∧ (∀ k, k < 2 → 0 < sampleEnv.fork k) ∧
    (run sampleEnv 2 ["healer_core", "true"] (1 + 3 * 2)).trace
      = [.fork, .waitpid 100 0, .sleep_for 1, .fork, .waitpid 101 0, .sleep_for 1] :=
  ⟨by decide, fun k _ => by simp [sampleEnv]; omega,
   (cycles_in_order sampleEnv 2 ["healer_core", "true"] 2 (by decide)
      (fun k _ => by simp [sampleEnv]; omega)).2.1.trans (by decide)⟩

/-- C4: two runs of `main` that differ only in the status words stored by `waitpid` pass
through the same program points with the same trace of calls, the same live children and
the same clock; the status is out of scope again at the head of the loop; and from every
call of `waitpid` the next three calls are that `waitpid`, the one-second `sleep_for` and
the next `fork`. -/
theorem exit_status_ignored (env : Env) (status₁ status₂ : Nat → Int) (argc : Int)
    (argv : List String) (n : Nat) :
    (run { env with waitStatus := status₁ } argc argv n).trace
      = (run { env with waitStatus := status₂ } argc argv n).trace ∧
    (run { env with waitStatus := status₁ } argc argv n).pc
      = (run { env with waitStatus := status₂ } argc argv n).pc ∧
    (run { env with waitStatus := status₁ } argc argv n).live
      = (run { env with waitStatus := status₂ } argc argv n).live ∧
    (run { env with waitStatus := status₁ } argc argv n).clock
      = (run { env with waitStatus := status₂ } argc argv n).clock ∧
    ((run env argc argv n).pc = .loopHead → (run env argc argv n).s = none) ∧
    ∀ pid, (run env argc argv n).pc = .parentWait pid →
      (run env argc argv (n + 3)).trace
        = (run env argc argv n).trace ++ [.waitpid pid 0, .sleep_for 1, .fork] := by
  obtain ⟨hpc, -, ht, hl, hk⟩ := run_sameActions env status₁ status₂ argc argv n
  refine ⟨ht, hpc, hl, hk, fun h => s_none_of_loopHead env argc argv n (Or.inr h), ?_⟩
  intro pid hp
  exact restart_after_wait env argc argv _ (inv_run env argc argv n) pid hp

/-- Witness of C4: the first child of the supervisor of `true`, whatever its status. -/
theorem exit_status_ignored_witness :
    (run sampleEnv 2 ["healer_core", "true"] 2).pc = .parentWait 100 ∧
    (run sampleEnv 2 ["healer_core", "true"] (2 + 3)).trace
      = (run sampleEnv 2 ["healer_core", "true"] 2).trace
          ++ [.waitpid 100 0, .sleep_for 1, .fork] :=
  ⟨by decide,
   (exit_status_ignored sampleEnv (fun _ => 0) (fun _ => 9) 2 ["healer_core", "true"] 2).2.2.2.2.2
     100 (by decide)⟩

theorem childEnv_fork_lt (env : Env) (k j : Nat) (hj : j < k) :
    (childEnv env k).fork j = env.fork j := by
  have : j ≠ k := by omega
  simp [childEnv, this]

theorem childEnv_fork_self (env : Env) (k : Nat) : (childEnv env k).fork k = 0 := by
  simp [childEnv]

/-- C5: for an argument vector of `argc ≥ 2` strings, `argv[1..argc-1]` is a non-empty list
`prog :: rest` fixed by `argv` alone, and in every iteration `k` the child created by the
`fork` of that iteration calls `execvp` with file `prog` and argument vector `prog :: rest`
as its first call; no run of that process ever calls `execvp` with anything else. -/
theorem child_executes_command (argc : Int) (argv : List String)
    (hlen : argc = argv.length) (h : 2 ≤ argc) :
    ∃ prog rest, argv.drop 1 = prog :: rest ∧ ((prog :: rest).length : Int) = argc - 1 ∧
      ∀ (env : Env) (k : Nat), (∀ j, j < k → env.fork j ≠ 0) →
        (run (childEnv env k) argc argv (1 + 3 * k)).trace = cycles env k ∧
        (run (childEnv env k) argc argv (1 + 3 * k + 2)).trace
          = cycles env k ++ [.fork, .execvp prog (prog :: rest)] ∧
        ∀ n f a, Effect.execvp f a ∈ (run (childEnv env k) argc argv n).trace →
          f = prog ∧ a = prog :: rest := by
  match argv, hlen with
  | [], hlen => simp at hlen; omega
  | [_], hlen => simp at hlen; omega
  | a0 :: prog :: rest, hlen =>
    refine ⟨prog, rest, rfl, ?_, ?_⟩
    · rw [hlen]; simp
    · intro env k hf
      have hf2 : ∀ j, j < k → (childEnv env k).fork j ≠ 0 := by
        intro j hj
        rw [childEnv_fork_lt env k j hj]
        exact hf j hj
      refine ⟨?_, ?_, ?_⟩
      · rw [run_loopHead (childEnv env k) argc _ h k hf2]
        exact cycles_childEnv env k
      · rw [run_childExit (childEnv env k) argc _ h k hf2 (childEnv_fork_self env k),
          cycles_childEnv]
        rfl
      · intro n f a hmem
        have := run_fromMain (childEnv env k) argc (a0 :: prog :: rest) n _ hmem
        simpa [Effect.fromMain] using this

/-- Witness of C5: the supervisor of `sleep 5`. -/
theorem child_executes_command_witness :
    (3 : Int) = (["healer_core", "sleep", "5"] : List String).length ∧ (2 : Int) ≤ 3 ∧
    ∃ prog rest, (["healer_core", "sleep", "5"] : List String).drop 1 = prog :: rest ∧
      ((prog :: rest).length : Int) = 3 - 1 ∧
      ∀ (env : Env) (k : Nat), (∀ j, j < k → env.fork j ≠ 0) →
        (run (childEnv env k) 3 ["healer_core", "sleep", "5"] (1 + 3 * k)).trace
          = cycles env k ∧
        (run (childEnv env k) 3 ["healer_core", "sleep", "5"] (1 + 3 * k + 2)).trace
          = cycles env k ++ [.fork, .execvp prog (prog :: rest)] ∧
        ∀ n f a,
          Effect.execvp f a ∈ (run (childEnv env k) 3 ["healer_core", "sleep", "5"] n).trace →
            f = prog ∧ a = prog :: rest :=
  ⟨by decide, by decide,
   child_executes_command 3 ["healer_core", "sleep", "5"] (by decide) (by decide)⟩

/-- C6: when `execvp` fails in the child created in iteration `k`, that child makes exactly
two calls after the `fork` that created it, the failed `execvp` and `exit(1)`, and stays
exited with status `1` ever after: it makes no `fork`, `waitpid` or `sleep_for` of its own.
The supervisor, in which that `fork` returned the child's pid, goes on with the `waitpid`
on that pid, the one-second `sleep_for` and the next `fork`, and never stops running. -/
theorem exec_failure_exits_child (env : Env) (argc : Int) (argv : List String) (k : Nat)
    (h : 2 ≤ argc) (hx : env.execvpFails = true) (hf : ∀ j, env.fork j ≠ 0) :
    (∀ m, (run (childEnv env k) argc argv (1 + 3 * k + 3 + m)).pc = .exited 1 ∧
      (run (childEnv env k) argc argv (1 + 3 * k + 3 + m)).trace
        = cycles env k ++ [.fork, .execvp (argv.getD 1 "") (argv.drop 1), .exit 1]) ∧
    (run env argc argv (1 + 3 * k)).trace = cycles env k ∧
    (run env argc argv (1 + 3 * k + 4)).trace
      = cycles env k ++ [.fork, .waitpid (env.fork k) 0, .sleep_for 1, .fork] ∧
    ∀ n, (run env argc argv n).pc.terminal = false := by
  have hf2 : ∀ j, j < k → (childEnv env k).fork j ≠ 0 := by
    intro j hj
    rw [childEnv_fork_lt env k j hj]
    exact hf j
  have hx2 : (childEnv env k).execvpFails = true := hx
  have hchild := run_exited (childEnv env k) argc argv h k hf2 (childEnv_fork_self env k) hx2
  refine ⟨?_, ?_, ?_, ?_⟩
  · intro m
    rw [run_terminal (childEnv env k) argc argv (1 + 3 * k + 3) (by rw [hchild]; rfl) m, hchild,
      cycles_childEnv]
    exact ⟨rfl, rfl⟩
  · rw [run_loopHead env argc argv h k (fun j _ => hf j)]; rfl
  · have e : 1 + 3 * k + 4 = (1 + 3 * (k + 1)) + 1 := by ring
    rw [e, run_parentWait env argc argv h (k + 1) (fun j _ => hf j) (hf _)]
    simp [cycles, cycleEffects]
  · intro n
    cases n with
    | zero => rfl
    | succ n => exact terminal_of_supervising _ (run_supervising env argc argv h hf n)

/-- Witness of C6: the supervisor of a path that does not exist. -/
theorem exec_failure_exits_child_witness :
    (2 : Int) ≤ 2 ∧ sampleEnv.execvpFails = true ∧ (∀ j, sampleEnv.fork j ≠ 0) ∧
    (run (childEnv sampleEnv 0) 2 ["healer_core", "/nonexistent"] (1 + 3 * 0 + 3 + 0)).pc
      = .exited 1 ∧
    (run sampleEnv 2 ["healer_core", "/nonexistent"] (1 + 3 * 0 + 4)).trace
      = cycles sampleEnv 0 ++ [.fork, .waitpid (sampleEnv.fork 0) 0, .sleep_for 1, .fork] :=
  ⟨by decide, rfl, fun j => by simp [sampleEnv]; omega,
   ((exec_failure_exits_child sampleEnv 2 ["healer_core", "/nonexistent"] 0 (by decide) rfl
      (fun j => by simp [sampleEnv]; omega)).1 0).1,
   (exec_failure_exits_child sampleEnv 2 ["healer_core", "/nonexistent"] 0 (by decide) rfl
      (fun j => by simp [sampleEnv]; omega)).2.2.1⟩

/-- C7: some run of `main` reaches a return exactly when it was invoked with `argc < 2`;
a return always carries status `1`, never `0`; and with a command to run the supervisor
(no `fork` returns `0` in it) reaches no terminal state at all, whatever its children do. -/
theorem returns_iff_no_command (env : Env) (argc : Int) (argv : List String) :
    ((∃ n c, (run env argc argv n).pc = .returned c) ↔ argc < 2) ∧
    (∀ n c, (run env argc argv n).pc = .returned c → c = 1 ∧ c ≠ 0 ∧ argc < 2) ∧
    (2 ≤ argc → (∀ k, env.fork k ≠ 0) → ∀ n, (run env argc argv n).pc.terminal = false) := by
  have hret : ∀ n c, (run env argc argv n).pc = .returned c → c = 1 ∧ c ≠ 0 ∧ argc < 2 := by
    intro n c hc
    rcases lt_or_le argc 2 with ha | ha
    · cases n with
      | zero => simp [run, init] at hc
      | succ n =>
        rw [run_of_lt env argc argv ha n] at hc
        simp at hc
        subst hc
        exact ⟨rfl, by decide, ha⟩
    · cases n with
      | zero => simp [run, init] at hc
      | succ n =>
        have := run_pastEntry env argc argv ha n
        rw [hc] at this
        simp [Pc.pastEntry] at this
  refine ⟨⟨?_, ?_⟩, hret, ?_⟩
  · rintro ⟨n, c, hc⟩
    exact (hret n c hc).2.2
  · intro ha
    exact ⟨1, 1, by rw [run_one_of_lt env argc argv ha]⟩
  · intro ha hf n
    cases n with
    | zero => rfl
    | succ n => exact terminal_of_supervising _ (run_supervising env argc argv ha hf n)

/-- Witness of C7: the supervisor of `true` is still running after a thousand steps. -/
theorem returns_iff_no_command_witness :
    (2 : Int) ≤ 2 ∧ (∀ k, sampleEnv.fork k ≠ 0) ∧
    (run sampleEnv 2 ["healer_core", "true"] 1000).pc.terminal = false :=
  ⟨by decide, fun k => by simp [sampleEnv]; omega,
   (returns_iff_no_command sampleEnv 2 ["healer_core", "true"]).2.2 (by decide)
     (fun k => by simp [sampleEnv]; omega) 1000⟩

theorem execvp_not_mem_cycles (env : Env) (n : Nat) (f : String) (a : List String) :
    Effect.execvp f a ∉ cycles env n := by
  induction n with
  | zero => simp [cycles]
  | succ n ih => simp [cycles, cycleEffects, ih]

/-- A call of `execvp` is in the trace only of a process in which some `fork` returned `0`. -/
theorem execvp_only_in_child (env : Env) (argc : Int) (argv : List String) (n : Nat)
    (f : String) (a : List String) (hmem : Effect.execvp f a ∈ (run env argc argv n).trace) :
    ∃ j, env.fork j = 0 := by
  induction n with
  | zero => simp [run, init] at hmem
  | succ n ih =>
    have hi := inv_run env argc argv n
    unfold Inv at hi
    rw [run_succ] at hmem
    cases hpc : (run env argc argv n).pc with
    | entry =>
      rcases lt_or_le argc 2 with ha | ha
      · rw [step_entry_lt env argc argv _ hpc ha] at hmem; exact ih hmem
      · rw [step_entry_le env argc argv _ hpc ha] at hmem; exact ih hmem
    | loopHead =>
      by_cases hz : env.fork (run env argc argv n).cycle = 0
      · exact ⟨_, hz⟩
      · rw [step_loopHead_parent env argc argv _ hpc hz] at hmem
        rcases List.mem_append.1 hmem with he | he
        · exact ih he
        · simp at he
    | childExec => rw [hpc] at hi; exact ⟨_, hi.1⟩
    | childExit => rw [hpc] at hi; exact ⟨_, hi.1⟩
    | parentWait pid =>
      rw [hpc] at hi
      obtain ⟨-, -, h3⟩ := hi
      by_cases hp : 0 < pid
      · rw [if_pos hp] at h3
        rw [step_parentWait_reap env argc argv _ pid hpc hp h3] at hmem
        rcases List.mem_append.1 hmem with he | he
        · exact ih he
        · simp at he
      · rw [if_neg hp] at h3
        rw [step_parentWait_none env argc argv _ pid hpc h3] at hmem
        rcases List.mem_append.1 hmem with he | he
        · exact ih he
        · simp at he
    | parentSleep pid =>
      rw [step_parentSleep env argc argv _ pid hpc] at hmem
      rcases List.mem_append.1 hmem with he | he
      · exact ih he
      · simp at he
    | returned c => rw [step_terminal _ _ _ _ (by simp [hpc, Pc.terminal])] at hmem; exact ih hmem
    | exited c => rw [hpc] at hi; exact ⟨_, hi.1⟩
    | replaced => rw [hpc] at hi; exact ⟨_, hi.1⟩

/-- C8: every `sleep_for` in every trace of `main` asks for exactly one second, whatever the
iteration and the statuses; and on the logical clock, when the `fork` of iterations `0..k`
succeed, the supervisor is at the head of the loop after `1 + 3 * k` and after
`1 + 3 * (k + 1)` steps, and the time between these two spawns is the run time of the child
of iteration `k` plus one second. -/
theorem pacing_delay_one_second (env : Env) (argc : Int) (argv : List String) (k : Nat)
    (h : 2 ≤ argc) (hf : ∀ j, j ≤ k → 0 < env.fork j) :
    (∀ n x, Effect.sleep_for x ∈ (run env argc argv n).trace → x = 1) ∧
    (run env argc argv (1 + 3 * k)).pc = .loopHead ∧
    (run env argc argv (1 + 3 * (k + 1))).pc = .loopHead ∧
    (run env argc argv (1 + 3 * (k + 1))).trace
      = (run env argc argv (1 + 3 * k)).trace
          ++ [.fork, .waitpid (env.fork k) 0, .sleep_for 1] ∧
    (run env argc argv (1 + 3 * (k + 1))).clock - (run env argc argv (1 + 3 * k)).clock
      = env.childRuntime k + 1 := by
  have hne : ∀ j, j < k + 1 → env.fork j ≠ 0 := fun j hj => by
    have := hf j (Nat.lt_succ_iff.1 hj); omega
  have h0 := run_loopHead env argc argv h k (fun j hj => hne j (Nat.lt_succ_of_lt hj))
  have h1 := run_loopHead env argc argv h (k + 1) hne
  refine ⟨?_, by rw [h0]; rfl, by rw [h1]; rfl, by rw [h0, h1]; rfl, ?_⟩
  · intro n x hx
    have := run_fromMain env argc argv n _ hx
    simpa [Effect.fromMain] using this
  · rw [h0, h1]
    simp only [atLoopHead, spawnTime, blocked, hf k (Nat.le_refl k), if_true]
    ring

/-- Witness of C8: the first two spawns when every child runs for two seconds. -/
theorem pacing_delay_one_second_witness :
    (2 : Int) ≤ 2 ∧ (∀ j, j ≤ 0 → 0 < sampleEnv.fork j) ∧
    (run sampleEnv 2 ["healer_core", "true"] (1 + 3 * (0 + 1))).clock
        - (run sampleEnv 2 ["healer_core", "true"] (1 + 3 * 0)).clock
      = sampleEnv.childRuntime 0 + 1 :=
  ⟨by decide, fun j _ => by simp [sampleEnv]; omega,
   (pacing_delay_one_second sampleEnv 2 ["healer_core", "true"] 0 (by decide)
      (fun j _ => by simp [sampleEnv]; omega)).2.2.2.2⟩

/-- Counterexample to C9: started as `healer_core` alone, the supervisor never writes
anything to standard output or standard error, at any step of its run. -/
theorem usage_error_not_reported :
    ¬ ∃ n, ∃ e ∈ (run sampleEnv 1 ["healer_core"] n).trace, e.isOutput = true := by
  rintro ⟨n, e, he, ho⟩
  rcases run_fromMain sampleEnv 1 ["healer_core"] n e he with h | h | h | ⟨_, h⟩ | h <;>
    simp [h, Effect.isOutput] at ho

/-- C9, amended: invoked with no command (`argc < 2`), the supervisor reports nothing: no
call in its trace writes to standard output or standard error, and it returns the
non-zero status `1`. -/
theorem no_command_silent (env : Env) (argc : Int) (argv : List String) (h : argc < 2)
    (n : Nat) :
    (∀ e ∈ (run env argc argv n).trace, e.isOutput = false) ∧
    (run env argc argv (n + 1)).pc = .returned 1 ∧ (1 : Int) ≠ 0 := by
  refine ⟨?_, by rw [run_of_lt env argc argv h n], by decide⟩
  intro e he
  rcases run_fromMain env argc argv n e he with h | h | h | ⟨_, h⟩ | h <;>
    simp [h, Effect.isOutput]

/-- Witness of C9, amended: the supervisor started with an empty argument vector. -/
theorem no_command_silent_witness :
    (0 : Int) < 2 ∧
    (∀ e ∈ (run sampleEnv 0 [] 1).trace, e.isOutput = false) ∧
    (run sampleEnv 0 [] (1 + 1)).pc = .returned 1 ∧ (1 : Int) ≠ 0 :=
  ⟨by decide, no_command_silent sampleEnv 0 [] (by decide) 1⟩

/-- C10: when the `fork` of iteration `k` returns a negative value in the supervisor, the
supervisor is in the parent branch with no live child; `waitpid` on that value has no
child to wait for and returns `-1`, reaping nothing; the supervisor goes on to the
one-second `sleep_for` and back to the head of the loop, one second later on the clock,
and calls `fork` again. Its trace up to there holds no `execvp`, and a trace of `main`
holds an `execvp` only in a process in which some `fork` returned `0`. -/
theorem fork_failure_retries (env : Env) (argc : Int) (argv : List String) (k : Nat)
    (h : 2 ≤ argc) (hf : ∀ j, j < k → env.fork j ≠ 0) (hk : env.fork k < 0) :
    (run env argc argv (1 + 3 * k + 1)).pc = .parentWait (env.fork k) ∧
    (run env argc argv (1 + 3 * k + 1)).live = [] ∧
    waitTarget (env.fork k) (run env argc argv (1 + 3 * k + 1)).live = none ∧
    waitpidResult (env.fork k) (run env argc argv (1 + 3 * k + 1)).live = -1 ∧
    (run env argc argv (1 + 3 * k + 2)).pc = .parentSleep (env.fork k) ∧
    (run env argc argv (1 + 3 * k + 2)).live = [] ∧
    (run env argc argv (1 + 3 * k + 3)).pc = .loopHead ∧
    (run env argc argv (1 + 3 * k + 3)).clock = (run env argc argv (1 + 3 * k)).clock + 1 ∧
    (run env argc argv (1 + 3 * k + 4)).trace
      = (run env argc argv (1 + 3 * k)).trace
          ++ [.fork, .waitpid (env.fork k) 0, .sleep_for 1, .fork] ∧
    (∀ f a, Effect.execvp f a ∉ (run env argc argv (1 + 3 * k + 4)).trace) ∧
    (∀ n f a, Effect.execvp f a ∈ (run env argc argv n).trace → ∃ j, env.fork j = 0) := by
  have hk0 : env.fork k ≠ 0 := by omega
  have hneg : ¬ (0 < env.fork k) := by omega
  have hne : ∀ j, j < k + 1 → env.fork j ≠ 0 := fun j hj => by
    rcases Nat.lt_succ_iff_lt_or_eq.1 hj with hlt | heq
    · exact hf j hlt
    · rw [heq]; exact hk0
  have h0 := run_loopHead env argc argv h k hf
  have h1 := run_parentWait env argc argv h k hf hk0
  have h2 := run_parentSleep env argc argv h k hf hk0
  have h3 := run_loopHead env argc argv h (k + 1) hne
  have e3 : 1 + 3 * k + 3 = 1 + 3 * (k + 1) := by ring
  have h4 : (run env argc argv (1 + 3 * k + 4)).trace
      = cycles env k ++ [.fork, .waitpid (env.fork k) 0, .sleep_for 1, .fork] := by
    have e : 1 + 3 * k + 4 = (1 + 3 * (k + 1)) + 1 := by ring
    rw [e, run_succ, h3]
    by_cases hz : env.fork (k + 1) = 0
    · rw [step_loopHead_child env argc argv _ rfl hz]; simp [atLoopHead, cycles, cycleEffects]
    · rw [step_loopHead_parent env argc argv _ rfl hz]; simp [atLoopHead, cycles, cycleEffects]
  refine ⟨by rw [h1], by rw [h1]; simp [hneg], ?_, ?_, by rw [h2], by rw [h2], by rw [e3, h3]; rfl,
    ?_, ?_, ?_, fun n f a => execvp_only_in_child env argc argv n f a⟩
  · rw [h1]
    by_cases hm : env.fork k = -1 <;> simp [hneg, waitTarget, hm]
  · rw [h1]
    by_cases hm : env.fork k = -1 <;> simp [hneg, waitpidResult, waitTarget, hm]
  · rw [e3, h3, h0]
    simp [atLoopHead, spawnTime, blocked, hneg]
  · rw [h4, h0]; rfl
  · intro f a hmem
    rw [h4] at hmem
    rcases List.mem_append.1 hmem with he | he
    · exact execvp_not_mem_cycles env k f a he
    · simp at he

/-- Witness of C10: the first `fork` fails and the second is attempted. -/
theorem fork_failure_retries_witness :
    (2 : Int) ≤ 2 ∧ (∀ j, j < 0 → forkFailsOnce.fork j ≠ 0) ∧ forkFailsOnce.fork 0 < 0 ∧
    (run forkFailsOnce 2 ["healer_core", "true"] (1 + 3 * 0 + 4)).trace
      = (run forkFailsOnce 2 ["healer_core", "true"] (1 + 3 * 0)).trace
          ++ [.fork, .waitpid (forkFailsOnce.fork 0) 0, .sleep_for 1, .fork] :=
  ⟨by decide, fun j hj => absurd hj (Nat.not_lt_zero j), by decide,
   (fork_failure_retries forkFailsOnce 2 ["healer_core", "true"] 0 (by decide)
      (fun j hj => absurd hj (Nat.not_lt_zero j)) (by decide)).2.2.2.2.2.2.2.2.1⟩

end Healer
